import Mathlib

/-!
# AVLTree.h — a shallow embedding and its verified properties

The C++ class template `AVLTree<T>` (file `AVLTree.h`) is embedded as pure functions
over an inductive tree.  A pointer `AVLNode<T>*` is a value of `AVLNode α`, with `nil`
for `NULL`.  A member function taking `AVLNode<T>*& callingNode` and mutating the tree
through it becomes a function returning the new content of that slot.

* The element type `T` is any type with a decidable linear order.
* The `int height` field is an `Int`: a cached height never exceeds the number of
  nodes, so 32-bit overflow is out of reach.
* Dereferencing `NULL` (undefined behaviour) is the result `none`.
* A C++ exception is recorded together with the state the slot is left in.
-/

namespace AVLTree

/-- The struct `AVLNode<T>`: fields `left`, `right`, `data`, `height`; `nil` is `NULL`. -/
inductive AVLNode (α : Type) where
  | nil : AVLNode α
  | node (left right : AVLNode α) (data : α) (height : Int) : AVLNode α
  deriving DecidableEq, Repr

/-- The two exceptions thrown by the class: `remove` of an absent value, and
`findMin`/`findMax` on an empty tree. -/
inductive TreeError where
  | notFound
  | emptyTree
  deriving DecidableEq, Repr

/-- Result of a call of the recursive `remove`, with the content of the slot
`callingNode` after the call: `returned t` is normal return, `threw e t` is an exception
leaving the slot as `t`, `fault` is a `NULL` dereference. -/
inductive Outcome (α : Type) where
  | returned (t : AVLNode α)
  | threw (e : TreeError) (t : AVLNode α)
  | fault
  deriving DecidableEq, Repr

variable {α : Type}

/-- The function `AVLTree::height`: `-1` for `NULL`, otherwise the cached `height` field. -/
def height : AVLNode α → Int
  | .nil => -1
  | .node _ _ _ h => h

/-- The function `AVLTree::max`: the larger of two ints. -/
def max (int1 int2 : Int) : Int :=
  if int1 > int2 then int1 else int2

/-- The function `AVLTree::leftRot`: `pivot = callingNode->right` becomes the root of the slot,
`callingNode` becomes its left child and takes `pivot->left` as its right child; the
height of `callingNode` is recomputed first, then that of `pivot`.  `none` when
`callingNode` or `callingNode->right` is `NULL`. -/
def leftRot : AVLNode α → Option (AVLNode α)
  | .node l (.node pl pr pd _) d _ =>
    let callingNode := AVLNode.node l pl d (max (height l) (height pl) + 1)
    some (.node callingNode pr pd (max (height callingNode) (height pr) + 1))
  | _ => none

/-- The function `AVLTree::rightRot`: mirror image of `leftRot` with `pivot = callingNode->left`. -/
def rightRot : AVLNode α → Option (AVLNode α)
  | .node (.node pl pr pd _) r d _ =>
    let callingNode := AVLNode.node pr r d (max (height pr) (height r) + 1)
    some (.node pl callingNode pd (max (height pl) (height callingNode) + 1))
  | _ => none

section Ops
variable [LinearOrder α]

/-- The function `AVLTree::rebalanceNode`: on a non-`NULL` slot, recompute the cached height, then
rotate according to `balanceFactor` and the comparison of `data` with the child. -/
def rebalanceNode (data : α) : AVLNode α → Option (AVLNode α)
  | .nil => some .nil
  | .node l r d _ =>
    let callingNode := AVLNode.node l r d (max (height l) (height r) + 1)
    let balanceFactor := height r - height l
    if balanceFactor > 1 then
      match r with
      | .nil => none
      | .node _ _ rd _ =>
        if data > rd then leftRot callingNode
        else (leftRot callingNode).bind rightRot
    else if balanceFactor < -1 then
      match l with
      | .nil => none
      | .node _ _ ld _ =>
        if data < ld then rightRot callingNode
        else (rightRot callingNode).bind leftRot
    else some callingNode

/-- The recursive `AVLTree::insert(T data, AVLNode<T>*& callingNode)`. -/
def insert (data : α) : AVLNode α → Option (AVLNode α)
  | .nil => rebalanceNode data (.node .nil .nil data 0)
  | .node l r d h =>
    if data < d then
      (insert data l).bind fun l' => rebalanceNode data (.node l' r d h)
    else if data > d then
      (insert data r).bind fun r' => rebalanceNode data (.node l r' d h)
    else rebalanceNode data (.node l r d h)

/-- The recursive `AVLTree::findMin`: throws on `NULL`, else the leftmost value. -/
def findMin : AVLNode α → Except TreeError α
  | .nil => .error .emptyTree
  | .node .nil _ d _ => .ok d
  | .node (.node ll lr ld lh) _ _ _ => findMin (.node ll lr ld lh)

/-- The recursive `AVLTree::findMax`: throws on `NULL`, else the rightmost value. -/
def findMax : AVLNode α → Except TreeError α
  | .nil => .error .emptyTree
  | .node _ .nil d _ => .ok d
  | .node _ (.node rl rr rd rh) _ _ => findMax (.node rl rr rd rh)

/-- Tail of every normally completing path of `remove`: `rebalanceNode(data, callingNode)`. -/
def finish (data : α) (t : AVLNode α) : Outcome α :=
  match rebalanceNode data t with
  | some t' => .returned t'
  | none => .fault

/-- The recursive `AVLTree::remove(T data, AVLNode<T>*& callingNode)`.  An exception
raised in a recursive call leaves this function before `rebalanceNode`; the slot then
holds whatever had been written up to that point. -/
def remove (data : α) : AVLNode α → Outcome α
  | .nil => .threw .notFound .nil
  | .node l r d h =>
    if data < d then
      match remove data l with
      | .returned l' => finish data (.node l' r d h)
      | .threw e l' => .threw e (.node l' r d h)
      | .fault => .fault
    else if data > d then
      match remove data r with
      | .returned r' => finish data (.node l r' d h)
      | .threw e r' => .threw e (.node l r' d h)
      | .fault => .fault
    else if l ≠ .nil ∧ r ≠ .nil then
      match findMin r with
      | .error e => .threw e (.node l r d h)
      | .ok m =>
        match remove m r with
        | .returned r' => finish data (.node l r' m h)
        | .threw e r' => .threw e (.node l r' m h)
        | .fault => .fault
    else
      let toDelete := if l ≠ .nil then l else r
      if toDelete = .nil then finish data .nil
      else finish data toDelete

/-- The recursive `AVLTree::contains`.  Only the `NULL` branch and the final `else`
branch execute a `return`.  In the two descending branches the recursive call is made,
its result is discarded, and control reaches the closing brace of a non-void function:
no value is returned (`none`). -/
def contains (data : α) : AVLNode α → Option Bool
  | .nil => some false
  | .node l r d _ =>
    if data < d then
      (contains data l).bind fun _ => none
    else if data > d then
      (contains data r).bind fun _ => none
    else some true

/-- The traversal order of `AVLTree::printTree`: left subtree, node, right subtree. -/
def printTree : AVLNode α → List α
  | .nil => []
  | .node l r d _ => printTree l ++ d :: printTree r

end Ops

/-- The function `AVLTree::isEmpty`: true iff `root == NULL`. -/
def isEmpty : AVLNode α → Bool
  | .nil => true
  | .node _ _ _ _ => false

/-- A public mutating call of the class, as issued by a client such as `main`. -/
inductive Call (α : Type) where
  | insert (v : α)
  | remove (v : α)
  deriving DecidableEq, Repr

/-- Effect of one public call on the root slot.  A `remove` that throws leaves the root
as the recursive call left it and the client carries on; `none` is a `NULL` dereference. -/
def step [LinearOrder α] (root : AVLNode α) : Call α → Option (AVLNode α)
  | .insert v => insert v root
  | .remove v =>
    match remove v root with
    | .returned t => some t
    | .threw _ t => some t
    | .fault => none

/-- Effect of a sequence of public calls, first call first. -/
def run [LinearOrder α] : List (Call α) → AVLNode α → Option (AVLNode α)
  | [], root => some root
  | c :: cs, root => (step root c).bind (run cs)

/-- The trees obtainable from the empty tree `AVLTree()` by `insert` and `remove` calls. -/
def Reachable [LinearOrder α] (t : AVLNode α) : Prop :=
  ∃ calls : List (Call α), run calls .nil = some t

/-! ## Predicates of the specification -/

/-- The true height of a subtree: `-1` when absent, `0` for a leaf. -/
def realHeight : AVLNode α → Int
  | .nil => -1
  | .node l r _ _ => Max.max (realHeight l) (realHeight r) + 1

/-- AVL balance at every node, on true heights: `|height(right) - height(left)| ≤ 1`. -/
def Balanced : AVLNode α → Prop
  | .nil => True
  | .node l r _ _ => |realHeight r - realHeight l| ≤ 1 ∧ Balanced l ∧ Balanced r

/-- Every cached `height` field equals `1 + max(height(left), height(right))`. -/
def HeightsCached : AVLNode α → Prop
  | .nil => True
  | .node l r _ h => h = max (height l) (height r) + 1 ∧ HeightsCached l ∧ HeightsCached r

/-- BST order at every node: everything stored on the left is smaller than the node's
value, everything stored on the right is greater. -/
def BSTOrder [LinearOrder α] : AVLNode α → Prop
  | .nil => True
  | .node l r d _ =>
    (∀ x ∈ printTree l, x < d) ∧ (∀ x ∈ printTree r, d < x) ∧ BSTOrder l ∧ BSTOrder r

section Conditions
variable [LinearOrder α]

/-- Condition under which `rebalanceNode` performs its single left rotation. -/
def RotatesLeft (v : α) (l r : AVLNode α) : Prop :=
  1 < height r - height l ∧ ∃ rl rr rd rh, r = .node rl rr rd rh ∧ rd < v

/-- Condition under which `rebalanceNode` performs its single right rotation. -/
def RotatesRight (v : α) (l r : AVLNode α) : Prop :=
  height r - height l < -1 ∧ ∃ ll lr ld lh, l = .node ll lr ld lh ∧ v < ld

/-- What every public call maintains: correct cached heights and an ascending traversal. -/
def Inv (t : AVLNode α) : Prop :=
  HeightsCached t ∧ (printTree t).Pairwise (· < ·)

/-- Along the search path of `v` every node has an up-to-date cached height and neither
single-rotation condition of `rebalanceNode` holds, and the path ends at a node storing
`v`: nothing is left for `insert v` to do. -/
def Settled (v : α) : AVLNode α → Prop
  | .nil => False
  | .node l r d h =>
    h = max (height l) (height r) + 1 ∧ ¬ RotatesLeft v l r ∧ ¬ RotatesRight v l r ∧
      (v < d → Settled v l) ∧ (d < v → Settled v r)

end Conditions

instance decidableBalanced : (t : AVLNode α) → Decidable (Balanced t)
  | .nil => isTrue trivial
  | .node l r _ _ =>
    have := decidableBalanced l
    have := decidableBalanced r
    inferInstanceAs (Decidable (_ ∧ _ ∧ _))

instance decidableHeightsCached : (t : AVLNode α) → Decidable (HeightsCached t)
  | .nil => isTrue trivial
  | .node l r _ _ =>
    have := decidableHeightsCached l
    have := decidableHeightsCached r
    inferInstanceAs (Decidable (_ ∧ _ ∧ _))

instance decidableBSTOrder [LinearOrder α] : (t : AVLNode α) → Decidable (BSTOrder t)
  | .nil => isTrue trivial
  | .node l r _ _ =>
    have := decidableBSTOrder l
    have := decidableBSTOrder r
    inferInstanceAs (Decidable (_ ∧ _ ∧ _ ∧ _))

/-- The mutating calls of `main` (main.cpp lines 18 to 26), in order.  The `double`
arguments are written in thousandths (`3.8` is `3800`, `.119` is `119`), which keeps their
order. -/
def mainCalls : List (Call Int) :=
  [.insert 3800, .insert 20000, .insert (-5000), .insert 3000, .remove 3800,
   .insert 2000, .insert 119, .insert 100000, .insert 200000]

/-- Every cached `height` field equals the true height of the subtree rooted at its node. -/
def HeightsTrue : AVLNode α → Prop
  | .nil => True
  | .node l r d h => h = realHeight (.node l r d h) ∧ HeightsTrue l ∧ HeightsTrue r

/-- The local `balanceFactor` of `rebalanceNode`, `height(right) - height(left)` on the
cached heights of the children; it is not computed for `NULL`. -/
def balanceFactor : AVLNode α → Int
  | .nil => 0
  | .node l r _ _ => height r - height l

/-- Whether a call `rebalanceNode(data, callingNode)` finds `balanceFactor > 1` or
`balanceFactor < -1`; the argument is the call, `data` first. -/
def Heavy (call : α × AVLNode α) : Bool :=
  decide (1 < balanceFactor call.2) || decide (balanceFactor call.2 < -1)

section Logs
variable [LinearOrder α]

/-- The calls of `rebalanceNode` made while `insert(data, callingNode)` runs, in the order
they are made (deepest slot first), each with its `data` and the content of its slot at the
time of the call.  The list ends where a `NULL` dereference ends the execution. -/
def insertRebalances (data : α) : AVLNode α → List (α × AVLNode α)
  | .nil => [(data, .node .nil .nil data 0)]
  | .node l r d h =>
    if data < d then
      insertRebalances data l ++
        (match insert data l with
         | some l' => [(data, .node l' r d h)]
         | none => [])
    else if data > d then
      insertRebalances data r ++
        (match insert data r with
         | some r' => [(data, .node l r' d h)]
         | none => [])
    else [(data, .node l r d h)]

/-- The calls of `rebalanceNode` made while `remove(data, callingNode)` runs, in the order
they are made, each with its `data` and the content of its slot at the time of the call.
The list ends where an exception or a `NULL` dereference ends the execution. -/
def removeRebalances (data : α) : AVLNode α → List (α × AVLNode α)
  | .nil => []
  | .node l r d h =>
    if data < d then
      removeRebalances data l ++
        (match remove data l with
         | .returned l' => [(data, .node l' r d h)]
         | _ => [])
    else if data > d then
      removeRebalances data r ++
        (match remove data r with
         | .returned r' => [(data, .node l r' d h)]
         | _ => [])
    else if l ≠ .nil ∧ r ≠ .nil then
      match findMin r with
      | .error _ => []
      | .ok m =>
        removeRebalances m r ++
          (match remove m r with
           | .returned r' => [(data, .node l r' m h)]
           | _ => [])
    else
      let toDelete := if l ≠ .nil then l else r
      [(data, toDelete)]

end Logs

/-- The subtrees below a slot have correct cached heights (the cached height of the slot's
own node may be stale, as it is when `rebalanceNode` is entered). -/
def ChildrenCached : AVLNode α → Prop
  | .nil => True
  | .node l r _ _ => HeightsCached l ∧ HeightsCached r

/-- The pivots dereferenced by a call of `rebalanceNode` on this slot are present: with
`balanceFactor > 1` the right child exists, `leftRot` succeeds and a following `rightRot`
finds its pivot; with `balanceFactor < -1` the mirror image. -/
def PivotsPresent : AVLNode α → Prop
  | .nil => True
  | .node l r d _ =>
    (1 < height r - height l →
      r ≠ .nil ∧ ∃ p, leftRot (.node l r d (max (height l) (height r) + 1)) = some p ∧
        ∃ q, rightRot p = some q) ∧
    (height r - height l < -1 →
      l ≠ .nil ∧ ∃ p, rightRot (.node l r d (max (height l) (height r) + 1)) = some p ∧
        ∃ q, leftRot p = some q)

/-- The side of the root on which `v` lies is the strictly taller one (by cached heights):
the shape of a subtree that an insertion of `v` below its root has just made taller. -/
def TallerSide [LinearOrder α] (v : α) : AVLNode α → Prop
  | .nil => False
  | .node l r d _ => (v < d ∧ height r < height l) ∨ (d < v ∧ height l < height r)

section Choices
variable [LinearOrder α]

/-- The branch `rebalanceNode(data, callingNode)` takes, read off its two nested tests:
`some true` for a single rotation, `some false` for the double-rotation branch, `none`
when the balance factor is within range (or the slot or the heavy child is `NULL`). -/
def rotationChoice (data : α) : AVLNode α → Option Bool
  | .nil => none
  | .node l r _ _ =>
    if height r - height l > 1 then
      match r with
      | .nil => none
      | .node _ _ rd _ => some (decide (data > rd))
    else if height r - height l < -1 then
      match l with
      | .nil => none
      | .node _ _ ld _ => some (decide (data < ld))
    else none

/-- The textbook rule after an insertion, which inspects the heavy child's own balance
factor: single rotation when it leans the same way as its parent (positive under a
right-heavy node, negative under a left-heavy one), double rotation otherwise. -/
def textbookChoiceInsert : AVLNode α → Option Bool
  | .nil => none
  | .node l r _ _ =>
    if height r - height l > 1 then
      match r with
      | .nil => none
      | .node rl rr rd rh => some (decide (balanceFactor (.node rl rr rd rh) > 0))
    else if height r - height l < -1 then
      match l with
      | .nil => none
      | .node ll lr ld lh => some (decide (balanceFactor (.node ll lr ld lh) < 0))
    else none

/-- The textbook rule after a removal: single rotation when the heavy child's balance
factor is `≥ 0` under a right-heavy node (`≤ 0` under a left-heavy one), double rotation
otherwise. -/
def textbookChoiceRemove : AVLNode α → Option Bool
  | .nil => none
  | .node l r _ _ =>
    if height r - height l > 1 then
      match r with
      | .nil => none
      | .node rl rr rd rh => some (decide (balanceFactor (.node rl rr rd rh) ≥ 0))
    else if height r - height l < -1 then
      match l with
      | .nil => none
      | .node ll lr ld lh => some (decide (balanceFactor (.node ll lr ld lh) ≤ 0))
    else none

end Choices

/-! ## Heights -/

@[simp] theorem height_nil : height (AVLNode.nil : AVLNode α) = -1 := rfl

@[simp] theorem height_node (l r : AVLNode α) (d : α) (h : Int) :
    height (.node l r d h) = h := rfl

theorem max_eq (a b : Int) : max a b = Max.max a b := by
  unfold max
  split <;> omega

theorem height_ge_of_cached : ∀ t : AVLNode α, HeightsCached t → -1 ≤ height t
  | .nil, _ => by simp
  | .node l r _ h, hc => by
    obtain ⟨h1, hl, hr⟩ := hc
    have := height_ge_of_cached l hl
    have := height_ge_of_cached r hr
    simp only [height_node, max_eq] at *
    omega

theorem height_eq_realHeight : ∀ t : AVLNode α, HeightsCached t → height t = realHeight t
  | .nil, _ => rfl
  | .node l r _ h, hc => by
    obtain ⟨h1, hl, hr⟩ := hc
    have := height_eq_realHeight l hl
    have := height_eq_realHeight r hr
    simp only [height_node, realHeight, max_eq] at *
    omega

/-! ## Rotations keep the traversal -/

theorem leftRot_printTree {t t' : AVLNode α} (h : leftRot t = some t') :
    printTree t' = printTree t := by
  unfold leftRot at h
  split at h
  · cases h
    simp [printTree]
  · cases h

theorem rightRot_printTree {t t' : AVLNode α} (h : rightRot t = some t') :
    printTree t' = printTree t := by
  unfold rightRot at h
  split at h
  · cases h
    simp [printTree]
  · cases h

/-- In `rebalanceNode`, a left rotation followed by a right rotation of the new root gives
back the subtree as it was after the height update, when the right child's cached height
is correct. -/
theorem leftRot_rightRot (l pl pr : AVLNode α) (d pd : α) (ph : Int)
    (hp : ph = max (height pl) (height pr) + 1) :
    (leftRot (.node l (.node pl pr pd ph) d (max (height l) ph + 1))).bind rightRot
      = some (.node l (.node pl pr pd ph) d (max (height l) ph + 1)) := by
  subst hp
  simp [leftRot, rightRot]

theorem rightRot_leftRot (pl pr r : AVLNode α) (d pd : α) (ph : Int)
    (hp : ph = max (height pl) (height pr) + 1) :
    (rightRot (.node (.node pl pr pd ph) r d (max ph (height r) + 1))).bind leftRot
      = some (.node (.node pl pr pd ph) r d (max ph (height r) + 1)) := by
  subst hp
  simp [leftRot, rightRot]

/-! ## Minimum and maximum -/

/-- On a non-empty tree `findMin` returns the first value of the traversal. -/
theorem findMin_spec : ∀ t : AVLNode α, t ≠ .nil →
    ∃ m rest, findMin t = .ok m ∧ printTree t = m :: rest
  | .nil, h => absurd rfl h
  | .node .nil r d _, _ => ⟨d, printTree r, rfl, rfl⟩
  | .node (.node ll lr ld lh) r d _, _ => by
    obtain ⟨m, rest, e, hp⟩ := findMin_spec (.node ll lr ld lh) (by simp)
    refine ⟨m, rest ++ d :: printTree r, by simpa [findMin] using e, ?_⟩
    simp only [printTree] at hp ⊢
    rw [hp]
    simp

/-- On a non-empty tree `findMax` returns the last value of the traversal. -/
theorem findMax_spec : ∀ t : AVLNode α, t ≠ .nil →
    ∃ m front, findMax t = .ok m ∧ printTree t = front ++ [m]
  | .nil, h => absurd rfl h
  | .node l .nil d _, _ => ⟨d, printTree l, rfl, rfl⟩
  | .node l (.node rl rr rd rh) d _, _ => by
    obtain ⟨m, front, e, hp⟩ := findMax_spec (.node rl rr rd rh) (by simp)
    refine ⟨m, printTree l ++ d :: front, by simpa [findMax] using e, ?_⟩
    simp only [printTree] at hp ⊢
    rw [hp]
    simp

/-! ## Cached heights are true heights -/

theorem heightsTrue_of_cached : ∀ t : AVLNode α, HeightsCached t → HeightsTrue t
  | .nil, _ => trivial
  | .node l r d h, hc =>
    ⟨height_eq_realHeight (.node l r d h) hc, heightsTrue_of_cached l hc.2.1,
      heightsTrue_of_cached r hc.2.2⟩

theorem printTree_eq_nil : ∀ t : AVLNode α, printTree t = [] → t = .nil
  | .nil, _ => rfl
  | .node l r d h, e => by simp [printTree] at e

/-! ## Pivots of the rotations -/

theorem pivotsPresent_of_childrenCached : ∀ n : AVLNode α, ChildrenCached n → PivotsPresent n
  | .nil, _ => trivial
  | .node l r d h, hc => by
    have hgl := height_ge_of_cached l hc.1
    have hgr := height_ge_of_cached r hc.2
    constructor
    · intro hb
      cases r with
      | nil => simp only [height_nil] at hb; omega
      | node rl rr rd rh => exact ⟨by simp, _, rfl, _, rfl⟩
    · intro hb
      cases l with
      | nil => simp only [height_nil] at hb; omega
      | node ll lr ld lh => exact ⟨by simp, _, rfl, _, rfl⟩

theorem childrenCached_of_cached : ∀ t : AVLNode α, HeightsCached t → ChildrenCached t
  | .nil, _ => trivial
  | .node _ _ _ _, hc => ⟨hc.2.1, hc.2.2⟩

theorem balanced_cached (l r : AVLNode α) (d : α) (h : Int)
    (hc : HeightsCached (.node l r d h)) (hb : Balanced (.node l r d h)) :
    height r - height l ≤ 1 ∧ -1 ≤ height r - height l := by
  have := hb.1
  rw [← height_eq_realHeight l hc.2.1, ← height_eq_realHeight r hc.2.2, abs_le] at this
  omega

/-! ## What `rebalanceNode` does on a node whose subtrees have correct cached heights -/

section Lemmas
variable [LinearOrder α]

/-- The three possible effects of `rebalanceNode`: height update only (this includes both
double-rotation branches), single left rotation, single right rotation. -/
theorem rebalanceNode_cases (v : α) (l r : AVLNode α) (d : α) (h : Int)
    (hl : HeightsCached l) (hr : HeightsCached r) :
    (¬ RotatesLeft v l r ∧ ¬ RotatesRight v l r ∧
      rebalanceNode v (.node l r d h) = some (.node l r d (max (height l) (height r) + 1)))
    ∨ (∃ rl rr rd rh, r = .node rl rr rd rh ∧ 1 < height r - height l ∧ rd < v ∧
        rebalanceNode v (.node l r d h) =
          some (.node (.node l rl d (max (height l) (height rl) + 1)) rr rd
            (max (max (height l) (height rl) + 1) (height rr) + 1)))
    ∨ (∃ ll lr ld lh, l = .node ll lr ld lh ∧ height r - height l < -1 ∧ v < ld ∧
        rebalanceNode v (.node l r d h) =
          some (.node ll (.node lr r d (max (height lr) (height r) + 1)) ld
            (max (height ll) (max (height lr) (height r) + 1) + 1))) := by
  have hgl := height_ge_of_cached l hl
  have hgr := height_ge_of_cached r hr
  by_cases h1 : 1 < height r - height l
  · cases r with
    | nil => simp only [height_nil] at h1; omega
    | node rl rr rd rh =>
      by_cases h2 : rd < v
      · right; left
        refine ⟨rl, rr, rd, rh, rfl, h1, h2, ?_⟩
        simp only [rebalanceNode, gt_iff_lt, if_pos h1, if_pos h2]
        simp [leftRot]
      · left
        refine ⟨fun hh => ?_, fun hh => ?_, ?_⟩
        · obtain ⟨_, a, b, c, e, heq, hlt⟩ := hh
          cases heq
          exact h2 hlt
        · have := hh.1
          omega
        · have := leftRot_rightRot l rl rr d rd rh hr.1
          simp only [rebalanceNode, gt_iff_lt, if_pos h1, if_neg h2]
          simpa using this
  · by_cases h3 : height r - height l < -1
    · cases l with
      | nil => simp only [height_nil] at h3; omega
      | node ll lr ld lh =>
        by_cases h4 : v < ld
        · right; right
          refine ⟨ll, lr, ld, lh, rfl, h3, h4, ?_⟩
          simp only [rebalanceNode, gt_iff_lt, if_neg h1, if_pos h3, if_pos h4]
          simp [rightRot]
        · left
          refine ⟨fun hh => ?_, fun hh => ?_, ?_⟩
          · have := hh.1
            omega
          · obtain ⟨_, a, b, c, e, heq, hlt⟩ := hh
            cases heq
            exact h4 hlt
          · have := rightRot_leftRot ll lr r d ld lh hl.1
            simp only [rebalanceNode, gt_iff_lt, if_neg h1, if_pos h3, if_neg h4]
            simpa using this
    · left
      refine ⟨fun hh => h1 hh.1, fun hh => h3 hh.1, ?_⟩
      simp only [rebalanceNode, gt_iff_lt, if_neg h1, if_neg h3]

/-- On subtrees with correct cached heights `rebalanceNode` dereferences no `NULL`, leaves
correct cached heights and keeps the traversal. -/
theorem rebalanceNode_spec (v : α) (l r : AVLNode α) (d : α) (h : Int)
    (hl : HeightsCached l) (hr : HeightsCached r) :
    ∃ t', rebalanceNode v (.node l r d h) = some t' ∧ HeightsCached t' ∧
      printTree t' = printTree l ++ d :: printTree r := by
  rcases rebalanceNode_cases v l r d h hl hr with
    ⟨_, _, e⟩ | ⟨rl, rr, rd, rh, rfl, _, _, e⟩ | ⟨ll, lr, ld, lh, rfl, _, _, e⟩
  · exact ⟨_, e, ⟨rfl, hl, hr⟩, rfl⟩
  · exact ⟨_, e, ⟨rfl, ⟨rfl, hl, hr.2.1⟩, hr.2.2⟩, by simp [printTree]⟩
  · exact ⟨_, e, ⟨rfl, hl.2.1, ⟨rfl, hl.2.2, hr⟩⟩, by simp [printTree]⟩

/-! ## Insertion -/

/-- On a tree with correct cached heights and ascending traversal, `insert` completes, keeps
both properties, and stores exactly the old values and `v`. -/
theorem insert_spec (v : α) : ∀ t : AVLNode α, HeightsCached t →
    (printTree t).Pairwise (· < ·) →
    ∃ t', insert v t = some t' ∧ HeightsCached t' ∧ (printTree t').Pairwise (· < ·) ∧
      ∀ x, x ∈ printTree t' ↔ x = v ∨ x ∈ printTree t
  | .nil, _, _ => by
    obtain ⟨t', e, hc, hp⟩ := rebalanceNode_spec v .nil .nil v 0 trivial trivial
    refine ⟨t', by simpa [insert] using e, hc, ?_, ?_⟩
    · simp [hp, printTree]
    · simp [hp, printTree]
  | .node l r d h, hc, hs => by
    obtain ⟨_, hcl, hcr⟩ := hc
    simp only [printTree, List.pairwise_append, List.pairwise_cons, List.mem_cons] at hs
    obtain ⟨hsl, ⟨hdr, hsr⟩, hcross⟩ := hs
    by_cases h1 : v < d
    · obtain ⟨l', el, hcl', hsl', hml⟩ := insert_spec v l hcl hsl
      obtain ⟨t', e, hc', hp⟩ := rebalanceNode_spec v l' r d h hcl' hcr
      refine ⟨t', by simp [insert, h1, el, e], hc', ?_, ?_⟩
      · rw [hp]
        simp only [List.pairwise_append, List.pairwise_cons, List.mem_cons]
        refine ⟨hsl', ⟨hdr, hsr⟩, ?_⟩
        intro a ha b hb
        rcases (hml a).1 ha with rfl | ha
        · rcases hb with rfl | hb
          · exact h1
          · exact lt_trans h1 (hdr b hb)
        · exact hcross a ha b hb
      · intro x
        simp only [hp, printTree, List.mem_append, List.mem_cons, hml]
        tauto
    · by_cases h2 : d < v
      · obtain ⟨r', er, hcr', hsr', hmr⟩ := insert_spec v r hcr hsr
        obtain ⟨t', e, hc', hp⟩ := rebalanceNode_spec v l r' d h hcl hcr'
        refine ⟨t', by simp [insert, h1, h2, er, e], hc', ?_, ?_⟩
        · rw [hp]
          simp only [List.pairwise_append, List.pairwise_cons, List.mem_cons]
          refine ⟨hsl, ⟨?_, hsr'⟩, ?_⟩
          · intro b hb
            rcases (hmr b).1 hb with rfl | hb
            · exact h2
            · exact hdr b hb
          · intro a ha b hb
            rcases hb with rfl | hb
            · exact hcross a ha b (Or.inl rfl)
            · rcases (hmr b).1 hb with rfl | hb
              · exact lt_trans (hcross a ha d (Or.inl rfl)) h2
              · exact hcross a ha b (Or.inr hb)
        · intro x
          simp only [hp, printTree, List.mem_append, List.mem_cons, hmr]
          tauto
      · have hv : v = d := le_antisymm (not_lt.1 h2) (not_lt.1 h1)
        obtain ⟨t', e, hc', hp⟩ := rebalanceNode_spec v l r d h hcl hcr
        refine ⟨t', by simp [insert, h1, h2, e], hc', ?_, ?_⟩
        · rw [hp]
          simp only [List.pairwise_append, List.pairwise_cons, List.mem_cons]
          exact ⟨hsl, ⟨hdr, hsr⟩, hcross⟩
        · intro x
          simp only [hp, printTree, List.mem_append, List.mem_cons, hv]
          tauto

theorem rebalanceNode_spec_all (v : α) (t : AVLNode α) (hc : HeightsCached t) :
    ∃ t', rebalanceNode v t = some t' ∧ HeightsCached t' ∧ printTree t' = printTree t := by
  cases t with
  | nil => exact ⟨.nil, rfl, trivial, rfl⟩
  | node l r d h => exact rebalanceNode_spec v l r d h hc.2.1 hc.2.2

theorem finish_spec (v : α) (t : AVLNode α) (hc : HeightsCached t) :
    ∃ t', finish v t = .returned t' ∧ HeightsCached t' ∧ printTree t' = printTree t := by
  obtain ⟨t', e, h⟩ := rebalanceNode_spec_all v t hc
  exact ⟨t', by simp [finish, e], h⟩

theorem finish_node_spec (v : α) (l r : AVLNode α) (d : α) (h : Int)
    (hl : HeightsCached l) (hr : HeightsCached r) :
    ∃ t', finish v (.node l r d h) = .returned t' ∧ HeightsCached t' ∧
      printTree t' = printTree l ++ d :: printTree r := by
  obtain ⟨t', e, h⟩ := rebalanceNode_spec v l r d h hl hr
  exact ⟨t', by simp [finish, e], h⟩

/-! ## Removal -/

/-- Removing a value that is not stored throws at the `NULL` slot the search ends in, and
every slot on the way is left as it was. -/
theorem remove_absent (v : α) : ∀ t : AVLNode α, v ∉ printTree t →
    remove v t = .threw .notFound t
  | .nil, _ => rfl
  | .node l r d h, hv => by
    simp only [printTree, List.mem_append, List.mem_cons, not_or] at hv
    obtain ⟨hvl, hvd, hvr⟩ := hv
    by_cases h1 : v < d
    · simp [remove, h1, remove_absent v l hvl]
    · have h2 : d < v := lt_of_le_of_ne (not_lt.1 h1) (Ne.symm hvd)
      simp [remove, h1, h2, remove_absent v r hvr]

theorem remove_two_children (l r r' : AVLNode α) (d m : α) (h : Int)
    (hl : l ≠ .nil) (hr : r ≠ .nil) (hm : findMin r = .ok m)
    (hrem : remove m r = .returned r') :
    remove d (.node l r d h) = finish d (.node l r' m h) := by
  simp [remove, hl, hr, hm, hrem]

/-- Removing a stored value from a tree with correct cached heights and ascending
traversal completes normally, keeps the cached heights correct and deletes exactly that
value from the traversal. -/
theorem remove_present : ∀ (t : AVLNode α) (v : α), HeightsCached t →
    (printTree t).Pairwise (· < ·) → v ∈ printTree t →
    ∃ t', remove v t = .returned t' ∧ HeightsCached t' ∧
      printTree t' = (printTree t).erase v
  | .nil, v, _, _, hv => by simp [printTree] at hv
  | .node l r d h, v, hc, hs, hv => by
    obtain ⟨_, hcl, hcr⟩ := hc
    simp only [printTree, List.pairwise_append, List.pairwise_cons, List.mem_cons] at hs
    obtain ⟨hsl, ⟨hdr, hsr⟩, hcross⟩ := hs
    simp only [printTree, List.mem_append, List.mem_cons] at hv
    have hld : ∀ x ∈ printTree l, x < d := fun x hx => hcross x hx d (Or.inl rfl)
    by_cases h1 : v < d
    · have hvl : v ∈ printTree l := by
        rcases hv with hv | rfl | hv
        · exact hv
        · exact absurd h1 (lt_irrefl _)
        · exact absurd (lt_trans h1 (hdr v hv)) (lt_irrefl _)
      obtain ⟨l', el, hcl', hpl⟩ := remove_present l v hcl hsl hvl
      obtain ⟨t', e, hc', hp⟩ := finish_node_spec v l' r d h hcl' hcr
      refine ⟨t', by simp [remove, h1, el, e], ?_, ?_⟩
      · exact hc'
      · rw [hp]
        simp only [printTree, hpl]
        rw [List.erase_append_left _ hvl]
    · by_cases h2 : d < v
      · have hvr : v ∈ printTree r := by
          rcases hv with hv | rfl | hv
          · exact absurd (lt_trans h2 (hld v hv)) (lt_irrefl _)
          · exact absurd h2 (lt_irrefl _)
          · exact hv
        have hvl : v ∉ printTree l := fun hx => absurd (lt_trans h2 (hld v hx)) (lt_irrefl _)
        obtain ⟨r', er, hcr', hpr⟩ := remove_present r v hcr hsr hvr
        obtain ⟨t', e, hc', hp⟩ := finish_node_spec v l r' d h hcl hcr'
        refine ⟨t', by simp [remove, h1, h2, er, e], hc', ?_⟩
        rw [hp]
        simp only [printTree, hpr]
        rw [List.erase_append_right _ hvl, List.erase_cons_tail (by simpa using ne_of_lt h2)]
      · have hvd : v = d := le_antisymm (not_lt.1 h2) (not_lt.1 h1)
        subst hvd
        have hvl : v ∉ printTree l := fun hx => absurd (hld v hx) (lt_irrefl _)
        have herase : ∀ xs : List α, (printTree l ++ v :: xs).erase v = printTree l ++ xs := by
          intro xs
          rw [List.erase_append_right _ hvl, List.erase_cons_head]
        cases l with
        | nil =>
          cases r with
          | nil =>
            refine ⟨.nil, by simp [remove, finish, rebalanceNode], trivial, ?_⟩
            simp [printTree]
          | node rl rr rd rh =>
            obtain ⟨t', e, hc', hp⟩ := finish_spec v (.node rl rr rd rh) hcr
            refine ⟨t', by simp [remove, e], hc', ?_⟩
            rw [hp]
            exact (herase _).symm
        | node ll lr ld lh =>
          cases r with
          | nil =>
            obtain ⟨t', e, hc', hp⟩ := finish_spec v (.node ll lr ld lh) hcl
            refine ⟨t', by simp [remove, e], hc', ?_⟩
            rw [hp]
            exact ((herase _).trans (by simp [printTree])).symm
          | node rl rr rd rh =>
            obtain ⟨m, rest, em, hpm⟩ := findMin_spec (.node rl rr rd rh) (by simp)
            obtain ⟨r', er, hcr', hpr⟩ :=
              remove_present (.node rl rr rd rh) m hcr hsr (by rw [hpm]; simp)
            obtain ⟨t', e, hc', hp⟩ := finish_node_spec v (.node ll lr ld lh) r' m h hcl hcr'
            refine ⟨t', ?_, hc', ?_⟩
            · rw [remove_two_children _ _ r' v m h (by simp) (by simp) em er, e]
            rw [hp, hpr, hpm, List.erase_cons_head]
            exact ((herase _).trans (by rw [← hpm])).symm

/-! ## The invariant of the class -/

theorem bstOrder_iff_pairwise : ∀ t : AVLNode α,
    BSTOrder t ↔ (printTree t).Pairwise (· < ·)
  | .nil => by simp [BSTOrder, printTree]
  | .node l r d _ => by
    simp only [BSTOrder, printTree, List.pairwise_append, List.pairwise_cons, List.mem_cons,
      bstOrder_iff_pairwise l, bstOrder_iff_pairwise r]
    constructor
    · rintro ⟨hl, hr, hsl, hsr⟩
      refine ⟨hsl, ⟨hr, hsr⟩, ?_⟩
      rintro a ha b (rfl | hb)
      · exact hl a ha
      · exact lt_trans (hl a ha) (hr b hb)
    · rintro ⟨hsl, ⟨hr, hsr⟩, hcross⟩
      exact ⟨fun x hx => hcross x hx d (Or.inl rfl), hr, hsl, hsr⟩

/-- Every public call completes on a tree satisfying the invariant and re-establishes it;
`insert v` adds `v` to the stored values, a `remove v` that returns deletes `v` from the
traversal, a `remove v` that throws changes nothing. -/
theorem step_inv (t : AVLNode α) (c : Call α) (hi : Inv t) :
    ∃ t', step t c = some t' ∧ Inv t' := by
  cases c with
  | insert v =>
    obtain ⟨t', e, hc, hs, _⟩ := insert_spec v t hi.1 hi.2
    exact ⟨t', e, hc, hs⟩
  | remove v =>
    by_cases hv : v ∈ printTree t
    · obtain ⟨t', e, hc, hp⟩ := remove_present t v hi.1 hi.2 hv
      refine ⟨t', by simp [step, e], hc, ?_⟩
      rw [hp]
      exact hi.2.sublist (List.erase_sublist v _)
    · exact ⟨t, by simp [step, remove_absent v t hv], hi⟩

theorem run_inv : ∀ (calls : List (Call α)) (t : AVLNode α), Inv t →
    ∃ t', run calls t = some t' ∧ Inv t'
  | [], t, hi => ⟨t, rfl, hi⟩
  | c :: cs, t, hi => by
    obtain ⟨t1, e1, hi1⟩ := step_inv t c hi
    obtain ⟨t', e, hi'⟩ := run_inv cs t1 hi1
    exact ⟨t', by simp [run, e1, e], hi'⟩

theorem inv_nil : Inv (AVLNode.nil : AVLNode α) :=
  ⟨trivial, by simp [printTree]⟩

theorem reachable_inv {t : AVLNode α} (h : Reachable t) : Inv t := by
  obtain ⟨calls, e⟩ := h
  obtain ⟨t', e', hi⟩ := run_inv calls .nil inv_nil
  rw [e] at e'
  cases e'
  exact hi

/-- Inserting a list of values one after the other: the calls complete, and the tree then
stores the old values together with those of the list. -/
theorem run_inserts : ∀ (vs : List α) (t : AVLNode α), Inv t →
    ∃ t', run (vs.map Call.insert) t = some t' ∧ Inv t' ∧
      ∀ x, x ∈ printTree t' ↔ x ∈ vs ∨ x ∈ printTree t
  | [], t, hi => ⟨t, rfl, hi, by simp⟩
  | v :: vs, t, hi => by
    obtain ⟨t1, e1, hc1, hs1, hm1⟩ := insert_spec v t hi.1 hi.2
    obtain ⟨t', e, hi', hm⟩ := run_inserts vs t1 ⟨hc1, hs1⟩
    refine ⟨t', by simp [run, step, e1, e], hi', ?_⟩
    intro x
    simp only [hm, hm1, List.mem_cons]
    tauto

theorem contains_node (v : α) (l r : AVLNode α) (d : α) (h : Int) :
    contains v (.node l r d h) = if v = d then some true else none := by
  by_cases h1 : v < d
  · have : (contains v l).bind (fun _ => (none : Option Bool)) = none := by
      cases contains v l <;> rfl
    simp [contains, h1, this, ne_of_lt h1]
  · by_cases h2 : d < v
    · have : (contains v r).bind (fun _ => (none : Option Bool)) = none := by
        cases contains v r <;> rfl
      simp [contains, h1, h2, this, (ne_of_lt h2).symm]
    · have hv : v = d := le_antisymm (not_lt.1 h2) (not_lt.1 h1)
      simp [contains, hv]

/-! ## A second insertion of the same value -/

theorem rebalanceNode_of_settled (v : α) (l r : AVLNode α) (d : α) (h : Int)
    (hl : HeightsCached l) (hr : HeightsCached r)
    (hh : h = max (height l) (height r) + 1) (nl : ¬ RotatesLeft v l r)
    (nr : ¬ RotatesRight v l r) :
    rebalanceNode v (.node l r d h) = some (.node l r d h) := by
  rcases rebalanceNode_cases v l r d h hl hr with
    ⟨_, _, e⟩ | ⟨rl, rr, rd, rh, er, hb, hlt, _⟩ | ⟨ll, lr, ld, lh, el, hb, hlt, _⟩
  · rw [e, ← hh]
  · exact absurd ⟨hb, rl, rr, rd, rh, er, hlt⟩ nl
  · exact absurd ⟨hb, ll, lr, ld, lh, el, hlt⟩ nr

theorem insert_of_settled (v : α) : ∀ t : AVLNode α, HeightsCached t → Settled v t →
    insert v t = some t
  | .nil, _, hs => absurd hs (by simp [Settled])
  | .node l r d h, hc, hs => by
    obtain ⟨_, hcl, hcr⟩ := hc
    obtain ⟨hh, nl, nr, sl, sr⟩ := hs
    have hreb := rebalanceNode_of_settled v l r d h hcl hcr hh nl nr
    by_cases h1 : v < d
    · simp [insert, h1, insert_of_settled v l hcl (sl h1), hreb]
    · by_cases h2 : d < v
      · simp [insert, h1, h2, insert_of_settled v r hcr (sr h2), hreb]
      · simp [insert, h1, h2, hreb]

theorem settled_of_insert (v : α) : ∀ t t' : AVLNode α, HeightsCached t →
    (printTree t).Pairwise (· < ·) → insert v t = some t' → Settled v t'
  | .nil, t', _, _, e => by
    simp only [insert, rebalanceNode, height_nil] at e
    simp only [sub_self, gt_iff_lt] at e
    norm_num at e
    subst e
    simp [Settled, RotatesLeft, RotatesRight, max_eq]
  | .node l r d h, t', hc, hs, e => by
    obtain ⟨_, hcl, hcr⟩ := hc
    simp only [printTree, List.pairwise_append, List.pairwise_cons, List.mem_cons] at hs
    obtain ⟨hsl, ⟨hdr, hsr⟩, hcross⟩ := hs
    have hld : ∀ x ∈ printTree l, x < d := fun x hx => hcross x hx d (Or.inl rfl)
    by_cases h1 : v < d
    · obtain ⟨l', el, hcl', _, _⟩ := insert_spec v l hcl hsl
      have sl' := settled_of_insert v l l' hcl hsl el
      simp only [insert, if_pos h1, el, Option.some_bind] at e
      rcases rebalanceNode_cases v l' r d h hcl' hcr with
        ⟨nl, nr, e'⟩ | ⟨rl, rr, rd, rh, er, _, hlt, _⟩ | ⟨ll, lr, ld, lh, el', hb, hlt, e'⟩
      · rw [e'] at e
        cases e
        exact ⟨rfl, nl, nr, fun _ => sl', fun hc => absurd (lt_trans h1 hc) (lt_irrefl _)⟩
      · subst er
        have := hdr rd (by simp [printTree])
        exact absurd (lt_trans (lt_trans h1 this) hlt) (lt_irrefl _)
      · rw [e'] at e
        cases e
        subst el'
        obtain ⟨_, _, nr', sll, _⟩ := sl'
        refine ⟨rfl, ?_, ?_, sll, fun hc => absurd (lt_trans hlt hc) (lt_irrefl _)⟩
        · rintro ⟨_, a, b, c, k, hk, hc⟩
          cases hk
          exact absurd (lt_trans h1 hc) (lt_irrefl _)
        · rintro ⟨hb', hex⟩
          refine nr' ⟨?_, hex⟩
          simp only [height_node, max_eq] at hb' ⊢
          omega
    · by_cases h2 : d < v
      · obtain ⟨r', er, hcr', _, _⟩ := insert_spec v r hcr hsr
        have sr' := settled_of_insert v r r' hcr hsr er
        simp only [insert, if_neg h1, gt_iff_lt, if_pos h2, er, Option.some_bind] at e
        rcases rebalanceNode_cases v l r' d h hcl hcr' with
          ⟨nl, nr, e'⟩ | ⟨rl, rr, rd, rh, er', hb, hlt, e'⟩ | ⟨ll, lr, ld, lh, el, _, hlt, _⟩
        · rw [e'] at e
          cases e
          exact ⟨rfl, nl, nr, fun hc => absurd (lt_trans h2 hc) (lt_irrefl _), fun _ => sr'⟩
        · rw [e'] at e
          cases e
          subst er'
          obtain ⟨_, nl', _, _, srr⟩ := sr'
          refine ⟨rfl, ?_, ?_, fun hc => absurd (lt_trans hlt hc) (lt_irrefl _), srr⟩
          · rintro ⟨hb', hex⟩
            refine nl' ⟨?_, hex⟩
            simp only [height_node, max_eq] at hb' ⊢
            omega
          · rintro ⟨_, a, b, c, k, hk, hc⟩
            cases hk
            exact absurd (lt_trans h2 hc) (lt_irrefl _)
        · subst el
          have := hld ld (by simp [printTree])
          exact absurd (lt_trans (lt_trans hlt this) h2) (lt_irrefl _)
      · have hv : v = d := le_antisymm (not_lt.1 h2) (not_lt.1 h1)
        simp only [insert, if_neg h1, gt_iff_lt, if_neg h2] at e
        rcases rebalanceNode_cases v l r d h hcl hcr with
          ⟨nl, nr, e'⟩ | ⟨rl, rr, rd, rh, er, _, hlt, _⟩ | ⟨ll, lr, ld, lh, el, _, hlt, _⟩
        · rw [e'] at e
          cases e
          exact ⟨rfl, nl, nr, fun hc => absurd hc h1, fun hc => absurd hc h2⟩
        · subst er
          have := hdr rd (by simp [printTree])
          exact absurd (lt_trans this hlt) (by rw [hv]; exact lt_irrefl _)
        · subst el
          have := hld ld (by simp [printTree])
          exact absurd (lt_trans hlt this) (by rw [hv]; exact lt_irrefl _)

/-! ## Removing several values -/

/-- Removing a list of values one after the other, absent ones included: the calls
complete, and the tree then stores the old values that are not in the list. -/
theorem run_removes : ∀ (vs : List α) (t : AVLNode α), Inv t →
    ∃ t', run (vs.map Call.remove) t = some t' ∧ Inv t' ∧
      ∀ x, x ∈ printTree t' ↔ x ∈ printTree t ∧ x ∉ vs
  | [], t, hi => ⟨t, rfl, hi, by simp⟩
  | v :: vs, t, hi => by
    by_cases hv : v ∈ printTree t
    · obtain ⟨t1, e1, hc1, hp1⟩ := remove_present t v hi.1 hi.2 hv
      have hs1 : (printTree t1).Pairwise (· < ·) := by
        rw [hp1]
        exact hi.2.sublist (List.erase_sublist v _)
      obtain ⟨t', e, hi', hm⟩ := run_removes vs t1 ⟨hc1, hs1⟩
      refine ⟨t', by simp [run, step, e1, e], hi', ?_⟩
      intro x
      have hnd : (printTree t).Nodup := List.Sorted.nodup (r := (· < ·)) hi.2
      rw [hm, hp1, hnd.mem_erase_iff]
      simp only [List.mem_cons, not_or]
      tauto
    · obtain ⟨t', e, hi', hm⟩ := run_removes vs t hi
      refine ⟨t', by simp [run, step, remove_absent v t hv, e], hi', ?_⟩
      intro x
      rw [hm]
      simp only [List.mem_cons, not_or]
      constructor
      · rintro ⟨hx, hxs⟩
        exact ⟨hx, fun hxv => hv (hxv ▸ hx), hxs⟩
      · rintro ⟨hx, _, hxs⟩
        exact ⟨hx, hxs⟩

/-! ## The calls of `rebalanceNode` -/

theorem remove_returned_cached (v : α) (t t' : AVLNode α) (hi : Inv t)
    (e : remove v t = .returned t') : HeightsCached t' := by
  by_cases hv : v ∈ printTree t
  · obtain ⟨t'', e'', hc, _⟩ := remove_present t v hi.1 hi.2 hv
    rw [e] at e''
    cases e''
    exact hc
  · rw [remove_absent v t hv] at e
    cases e

theorem inv_children (l r : AVLNode α) (d : α) (h : Int) (hi : Inv (.node l r d h)) :
    Inv l ∧ Inv r := by
  obtain ⟨⟨_, hcl, hcr⟩, hs⟩ := hi
  simp only [printTree, List.pairwise_append, List.pairwise_cons] at hs
  exact ⟨⟨hcl, hs.1⟩, ⟨hcr, hs.2.1.2⟩⟩

/-- Every call of `rebalanceNode` made by `insert` on a tree satisfying the invariant
finds subtrees with correct cached heights below its slot. -/
theorem insertRebalances_cached (v : α) : ∀ t : AVLNode α, Inv t →
    ∀ c ∈ insertRebalances v t, ChildrenCached c.2
  | .nil, _, c, hc => by
    simp only [insertRebalances, List.mem_singleton] at hc
    subst hc
    exact ⟨trivial, trivial⟩
  | .node l r d h, hi, c, hc => by
    obtain ⟨hil, hir⟩ := inv_children l r d h hi
    by_cases h1 : v < d
    · obtain ⟨l', el, hcl', _⟩ := insert_spec v l hil.1 hil.2
      simp only [insertRebalances, if_pos h1, el, List.mem_append, List.mem_singleton] at hc
      rcases hc with hc | rfl
      · exact insertRebalances_cached v l hil c hc
      · exact ⟨hcl', hir.1⟩
    · by_cases h2 : d < v
      · obtain ⟨r', er, hcr', _⟩ := insert_spec v r hir.1 hir.2
        simp only [insertRebalances, if_neg h1, gt_iff_lt, if_pos h2, er, List.mem_append,
          List.mem_singleton] at hc
        rcases hc with hc | rfl
        · exact insertRebalances_cached v r hir c hc
        · exact ⟨hil.1, hcr'⟩
      · simp only [insertRebalances, if_neg h1, gt_iff_lt, if_neg h2,
          List.mem_singleton] at hc
        subst hc
        exact ⟨hil.1, hir.1⟩

/-- Every call of `rebalanceNode` made by `remove` on a tree satisfying the invariant
finds subtrees with correct cached heights below its slot. -/
theorem removeRebalances_cached : ∀ (t : AVLNode α) (v : α), Inv t →
    ∀ c ∈ removeRebalances v t, ChildrenCached c.2
  | .nil, v, _, c, hc => by simp [removeRebalances] at hc
  | .node l r d h, v, hi, c, hc => by
    obtain ⟨hil, hir⟩ := inv_children l r d h hi
    by_cases h1 : v < d
    · simp only [removeRebalances, if_pos h1, List.mem_append] at hc
      rcases hc with hc | hc
      · exact removeRebalances_cached l v hil c hc
      · cases e : remove v l with
        | returned l' =>
          simp only [e, List.mem_singleton] at hc
          subst hc
          exact ⟨remove_returned_cached v l l' hil e, hir.1⟩
        | threw _ _ => simp [e] at hc
        | fault => simp [e] at hc
    · by_cases h2 : d < v
      · simp only [removeRebalances, if_neg h1, gt_iff_lt, if_pos h2, List.mem_append] at hc
        rcases hc with hc | hc
        · exact removeRebalances_cached r v hir c hc
        · cases e : remove v r with
          | returned r' =>
            simp only [e, List.mem_singleton] at hc
            subst hc
            exact ⟨hil.1, remove_returned_cached v r r' hir e⟩
          | threw _ _ => simp [e] at hc
          | fault => simp [e] at hc
      · simp only [removeRebalances, if_neg h1, gt_iff_lt, if_neg h2] at hc
        by_cases h3 : l ≠ .nil ∧ r ≠ .nil
        · simp only [if_pos h3] at hc
          cases em : findMin r with
          | error _ => simp [em] at hc
          | ok m =>
            simp only [em, List.mem_append] at hc
            rcases hc with hc | hc
            · exact removeRebalances_cached r m hir c hc
            · cases e : remove m r with
              | returned r' =>
                simp only [e, List.mem_singleton] at hc
                subst hc
                exact ⟨hil.1, remove_returned_cached m r r' hir e⟩
              | threw _ _ => simp [e] at hc
              | fault => simp [e] at hc
        · simp only [if_neg h3, List.mem_singleton] at hc
          subst hc
          by_cases h4 : l ≠ .nil
          · simp only [if_pos h4]
            exact childrenCached_of_cached l hil.1
          · simp only [if_neg h4]
            exact childrenCached_of_cached r hir.1

/-! ## Inserting a stored value into a balanced tree -/

theorem settled_of_balanced (v : α) : ∀ t : AVLNode α, HeightsCached t → Balanced t →
    (printTree t).Pairwise (· < ·) → v ∈ printTree t → Settled v t
  | .nil, _, _, _, hv => by simp [printTree] at hv
  | .node l r d h, hc, hb, hs, hv => by
    obtain ⟨hh, hcl, hcr⟩ := hc
    obtain ⟨hbal, hbl, hbr⟩ := hb
    simp only [printTree, List.pairwise_append, List.pairwise_cons, List.mem_cons] at hs
    obtain ⟨hsl, ⟨hdr, hsr⟩, hcross⟩ := hs
    simp only [printTree, List.mem_append, List.mem_cons] at hv
    rw [← height_eq_realHeight l hcl, ← height_eq_realHeight r hcr, abs_le] at hbal
    refine ⟨hh, fun hr => ?_, fun hr => ?_, fun h1 => ?_, fun h2 => ?_⟩
    · have := hr.1
      omega
    · have := hr.1
      omega
    · refine settled_of_balanced v l hcl hbl hsl ?_
      rcases hv with hv | rfl | hv
      · exact hv
      · exact absurd h1 (lt_irrefl _)
      · exact absurd (lt_trans h1 (hdr v hv)) (lt_irrefl _)
    · refine settled_of_balanced v r hcr hbr hsr ?_
      rcases hv with hv | rfl | hv
      · exact absurd (lt_trans h2 (hcross v hv d (Or.inl rfl))) (lt_irrefl _)
      · exact absurd h2 (lt_irrefl _)
      · exact hv

/-- On a tree in BST order that is AVL balanced with correct cached heights, `insert` of a
stored value returns the tree as it was. -/
theorem insert_stored_of_balanced (v : α) (t : AVLNode α) (hc : HeightsCached t)
    (hb : Balanced t) (hs : (printTree t).Pairwise (· < ·)) (hv : v ∈ printTree t) :
    insert v t = some t :=
  insert_of_settled v t hc (settled_of_balanced v t hc hb hs hv)

/-! ## The rotation chosen after an insertion -/

/-- Insertion of a new value into a valid AVL tree completes and leaves correct cached
heights; the result is as tall as the tree was, or taller by one, and then the new value
lies on the strictly taller side of the root. -/
theorem insert_grows (v : α) : ∀ t : AVLNode α, HeightsCached t → Balanced t →
    v ∉ printTree t →
    ∃ t', insert v t = some t' ∧ HeightsCached t' ∧
      (height t' = height t ∨ (height t' = height t + 1 ∧ (t = .nil ∨ TallerSide v t')))
  | .nil, _, _, _ => by
    refine ⟨.node .nil .nil v 0, ?_, ?_, ?_⟩
    · rcases rebalanceNode_cases v .nil .nil v 0 trivial trivial with
        ⟨_, _, e⟩ | ⟨_, _, _, _, er, _⟩ | ⟨_, _, _, _, el, _⟩
      · rw [insert, e]
        simp [max_eq]
      · cases er
      · cases el
    · simp [HeightsCached, max_eq]
    · right
      simp
  | .node l r d h, hc, hb, hv => by
    obtain ⟨hbu, hbl⟩ := balanced_cached l r d h hc hb
    obtain ⟨hh, hcl, hcr⟩ := hc
    obtain ⟨_, hbl', hbr'⟩ := hb
    have hgl := height_ge_of_cached l hcl
    have hgr := height_ge_of_cached r hcr
    simp only [printTree, List.mem_append, List.mem_cons, not_or] at hv
    obtain ⟨hvl, hvd, hvr⟩ := hv
    simp only [max_eq] at hh
    by_cases h1 : v < d
    · obtain ⟨l', el, hcl', hgt⟩ := insert_grows v l hcl hbl' hvl
      simp only [insert, if_pos h1, el, Option.some_bind]
      rcases rebalanceNode_cases v l' r d h hcl' hcr with
        ⟨_, _, e⟩ | ⟨rl, rr, rd, rh, _, hb1, _, _⟩ | ⟨ll, lr, ld, lh, el', hb2, hlt, e⟩
      · refine ⟨_, e, ⟨rfl, hcl', hcr⟩, ?_⟩
        simp only [height_node, max_eq]
        by_cases hlt : height r < height l'
        · by_cases heq : height l' = height l
          · left; omega
          · right
            exact ⟨by omega, Or.inr (Or.inl ⟨h1, hlt⟩)⟩
        · left; omega
      · omega
      · subst el'
        refine ⟨_, e, ⟨rfl, hcl'.2.1, ⟨rfl, hcl'.2.2, hcr⟩⟩, Or.inl ?_⟩
        have hlh := hcl'.1
        simp only [height_node, max_eq] at hgt hb2 hlh ⊢
        rcases hgt with hgt | ⟨hgt, rfl | hts⟩
        · omega
        · simp only [height_nil] at hgt
          omega
        · rcases hts with ⟨_, b⟩ | ⟨a, _⟩
          · omega
          · exact absurd (lt_trans a hlt) (lt_irrefl _)
    · have h2 : d < v := lt_of_le_of_ne (not_lt.1 h1) (Ne.symm hvd)
      obtain ⟨r', er, hcr', hgt⟩ := insert_grows v r hcr hbr' hvr
      simp only [insert, if_neg h1, gt_iff_lt, if_pos h2, er, Option.some_bind]
      rcases rebalanceNode_cases v l r' d h hcl hcr' with
        ⟨_, _, e⟩ | ⟨rl, rr, rd, rh, er', hb1, hlt, e⟩ | ⟨ll, lr, ld, lh, _, hb2, _, _⟩
      · refine ⟨_, e, ⟨rfl, hcl, hcr'⟩, ?_⟩
        simp only [height_node, max_eq]
        by_cases hlt : height l < height r'
        · by_cases heq : height r' = height r
          · left; omega
          · right
            exact ⟨by omega, Or.inr (Or.inr ⟨h2, hlt⟩)⟩
        · left; omega
      · subst er'
        refine ⟨_, e, ⟨rfl, ⟨rfl, hcl, hcr'.2.1⟩, hcr'.2.2⟩, Or.inl ?_⟩
        have hrh := hcr'.1
        simp only [height_node, max_eq] at hgt hb1 hrh ⊢
        rcases hgt with hgt | ⟨hgt, rfl | hts⟩
        · omega
        · simp only [height_nil] at hgt
          omega
        · rcases hts with ⟨a, _⟩ | ⟨_, b⟩
          · exact absurd (lt_trans hlt a) (lt_irrefl _)
          · omega
      · omega

/-- In a valid AVL tree not storing `v`, every call of `rebalanceNode` made by `insert v`
chooses its branch as the textbook rule does, and finds correct cached heights below its
slot. -/
theorem insertRebalances_textbook (v : α) : ∀ t : AVLNode α, HeightsCached t →
    Balanced t → v ∉ printTree t → ∀ c ∈ insertRebalances v t,
      rotationChoice c.1 c.2 = textbookChoiceInsert c.2 ∧ ChildrenCached c.2
  | .nil, _, _, _, c, hc => by
    simp only [insertRebalances, List.mem_singleton] at hc
    subst hc
    exact ⟨by simp [rotationChoice, textbookChoiceInsert], trivial, trivial⟩
  | .node l r d h, hc, hb, hv, c, hmem => by
    obtain ⟨hbu, hbl⟩ := balanced_cached l r d h hc hb
    obtain ⟨hh, hcl, hcr⟩ := hc
    obtain ⟨_, hbl', hbr'⟩ := hb
    have hgl := height_ge_of_cached l hcl
    have hgr := height_ge_of_cached r hcr
    simp only [printTree, List.mem_append, List.mem_cons, not_or] at hv
    obtain ⟨hvl, hvd, hvr⟩ := hv
    by_cases h1 : v < d
    · obtain ⟨l', el, hcl', hgt⟩ := insert_grows v l hcl hbl' hvl
      simp only [insertRebalances, if_pos h1, el, List.mem_append, List.mem_singleton] at hmem
      rcases hmem with hmem | rfl
      · exact insertRebalances_textbook v l hcl hbl' hvl c hmem
      · refine ⟨?_, hcl', hcr⟩
        have n1 : ¬ height r - height l' > 1 := by omega
        simp only [rotationChoice, textbookChoiceInsert, if_neg n1]
        by_cases n2 : height r - height l' < -1
        · simp only [if_pos n2]
          rcases hgt with hgt | ⟨hgt, rfl | hts⟩
          · omega
          · simp only [height_nil] at hgt n2
            omega
          · cases l' with
            | nil => exact absurd hts (by simp [TallerSide])
            | node ll lr ld lh =>
              rcases hts with ⟨a, b⟩ | ⟨a, b⟩
              · simp only [balanceFactor, Option.some.injEq, decide_eq_decide]
                exact ⟨fun _ => by omega, fun _ => a⟩
              · simp only [balanceFactor, Option.some.injEq, decide_eq_decide]
                exact ⟨fun c => absurd (lt_trans a c) (lt_irrefl _), fun c => by omega⟩
        · simp only [if_neg n2]
    · have h2 : d < v := lt_of_le_of_ne (not_lt.1 h1) (Ne.symm hvd)
      obtain ⟨r', er, hcr', hgt⟩ := insert_grows v r hcr hbr' hvr
      simp only [insertRebalances, if_neg h1, gt_iff_lt, if_pos h2, er, List.mem_append,
        List.mem_singleton] at hmem
      rcases hmem with hmem | rfl
      · exact insertRebalances_textbook v r hcr hbr' hvr c hmem
      · refine ⟨?_, hcl, hcr'⟩
        simp only [rotationChoice, textbookChoiceInsert]
        by_cases n1 : height r' - height l > 1
        · simp only [if_pos n1]
          rcases hgt with hgt | ⟨hgt, rfl | hts⟩
          · omega
          · simp only [height_nil] at hgt n1
            omega
          · cases r' with
            | nil => exact absurd hts (by simp [TallerSide])
            | node rl rr rd rh =>
              rcases hts with ⟨a, b⟩ | ⟨a, b⟩
              · simp only [balanceFactor, gt_iff_lt, Option.some.injEq, decide_eq_decide]
                exact ⟨fun c => absurd (lt_trans a c) (lt_irrefl _), fun c => by omega⟩
              · simp only [balanceFactor, gt_iff_lt, Option.some.injEq, decide_eq_decide]
                exact ⟨fun _ => by omega, fun _ => a⟩
        · have n2 : ¬ height r' - height l < -1 := by omega
          simp only [if_neg n1, if_neg n2]

end Lemmas

/-! ## The claims -/

/-- C1, evaluated on the code: after `insert(1); insert(3); insert(2)` on the empty tree
the root `1` has no left subtree (true height `-1`) and a right subtree of true height
`1`, so the AVL balance condition fails at the root.  The right-left branch of
`rebalanceNode` runs `leftRot` and then `rightRot` on the same slot, which puts the
subtree back as it was. -/
theorem insert_right_left_unbalanced :
    run [Call.insert (1 : Int), .insert 3, .insert 2] .nil
        = some (.node .nil (.node (.node .nil .nil 2 0) .nil 3 1) 1 2)
      ∧ ¬ Balanced (AVLNode.node .nil (.node (.node .nil .nil (2 : Int) 0) .nil 3 1) 1 2) := by
  decide

/-- C2, evaluated on the code: the tree built by the first four inserts of `main` is in
BST order, AVL balanced and has correct cached heights, and stores `3.8`; after
`remove(3.8)` the root `20` has a left subtree of true height `1` and no right subtree, so
the AVL balance condition fails.  The left-right branch of `rebalanceNode` runs `rightRot`
and then `leftRot` on the same slot, which puts the subtree back as it was. -/
theorem remove_leaves_unbalanced :
    ∃ t t', run (mainCalls.take 4) .nil = some t ∧ BSTOrder t ∧ Balanced t ∧
      HeightsCached t ∧ (3800 : Int) ∈ printTree t ∧
      remove 3800 t = .returned t' ∧ ¬ Balanced t' :=
  ⟨.node (.node .nil (.node .nil .nil 3000 0) (-5000) 1) (.node .nil .nil 20000 0) 3800 2,
   .node (.node .nil (.node .nil .nil 3000 0) (-5000) 1) .nil 20000 2,
   by decide⟩

/-- C3: every finite sequence of `insert` and `remove` calls issued on the empty tree
(failing `remove` calls included) runs to completion, and the resulting tree is in BST
order: at every node all values on the left are smaller and all values on the right are
greater; equivalently its in-order traversal is strictly ascending, without duplicates. -/
theorem reachable_bst_order [LinearOrder α] (calls : List (Call α)) :
    ∃ t, run calls .nil = some t ∧ BSTOrder t ∧
      (printTree t).Sorted (· < ·) ∧ (printTree t).Nodup := by
  obtain ⟨t, e, hi⟩ := run_inv calls .nil inv_nil
  have hs : (printTree t).Sorted (· < ·) := hi.2
  exact ⟨t, e, (bstOrder_iff_pairwise t).2 hi.2, hs, hs.nodup⟩

/-- C4: inserting the values of a list of pairwise distinct values, in the given order,
into the empty tree completes, and the in-order traversal (the order of `printTree`) is
then exactly the list sorted, in strictly ascending order. -/
theorem insert_all_then_traverse [LinearOrder α] (vs : List α) (hd : vs.Nodup) :
    ∃ t, run (vs.map Call.insert) .nil = some t ∧
      printTree t = vs.insertionSort (· ≤ ·) ∧ (printTree t).Sorted (· < ·) := by
  obtain ⟨t, e, hi, hm⟩ := run_inserts vs .nil inv_nil
  have hs : (printTree t).Sorted (· < ·) := hi.2
  refine ⟨t, e, ?_, hs⟩
  have hperm : (printTree t).Perm (vs.insertionSort (· ≤ ·)) := by
    refine ((List.perm_ext_iff_of_nodup hs.nodup hd).2 ?_).trans
      (List.perm_insertionSort _ vs).symm
    intro x
    simp [hm, printTree]
  exact List.eq_of_perm_of_sorted hperm (hs.imp le_of_lt) (List.sorted_insertionSort _ vs)

/-- C4 at the list `3, 1, 2`. -/
theorem insert_all_then_traverse_witness :
    ([3, 1, 2] : List Int).Nodup ∧
    ∃ t, run (([3, 1, 2] : List Int).map Call.insert) .nil = some t ∧
      printTree t = ([3, 1, 2] : List Int).insertionSort (· ≤ ·) ∧
      (printTree t).Sorted (· < ·) :=
  ⟨by decide, insert_all_then_traverse [3, 1, 2] (by decide)⟩

/-- C5, evaluated on the code: after `insert(2); insert(1)` the value `1` is stored;
`remove(1)` returns normally and the traversal is the former one with `1` deleted, but
`contains(1)` on the result does not return `false`: it descends to the left of `2`,
discards the result of the recursive call and reaches the end of the function without a
`return`. -/
theorem remove_then_contains_no_value :
    ∃ t t', run [Call.insert (2 : Int), .insert 1] .nil = some t ∧ (1 : Int) ∈ printTree t ∧
      remove 1 t = .returned t' ∧ printTree t' = (printTree t).erase 1 ∧
      contains 1 t' = none ∧ contains 1 t' ≠ some false :=
  ⟨.node (.node .nil .nil 1 0) .nil 2 1, .node .nil .nil 2 0, by decide⟩

/-- C6: on every tree obtained from the empty tree by `insert` and `remove` calls,
`remove(v)` throws the not-found exception exactly when `v` is not stored, it throws no
other exception, and when it throws the tree is left exactly as it was before the call
(shape, values and cached heights). -/
theorem remove_throws_iff_absent [LinearOrder α] (calls : List (Call α)) (v : α) :
    ∃ t, run calls .nil = some t ∧
      ((∃ t', remove v t = .threw .notFound t') ↔ v ∉ printTree t) ∧
      (∀ e t', remove v t = .threw e t' → e = .notFound ∧ t' = t) := by
  obtain ⟨t, e, hi⟩ := run_inv calls .nil inv_nil
  have key : ∀ e t', remove v t = .threw e t' → v ∉ printTree t := by
    intro e t' he hv
    obtain ⟨t'', e'', _⟩ := remove_present t v hi.1 hi.2 hv
    rw [e''] at he
    cases he
  refine ⟨t, e, ⟨?_, ?_⟩, ?_⟩
  · rintro ⟨t', he⟩
    exact key _ _ he
  · intro hv
    exact ⟨t, remove_absent v t hv⟩
  · intro e t' he
    rw [remove_absent v t (key e t' he)] at he
    cases he
    exact ⟨rfl, rfl⟩

/-- C7, evaluated on the code: on the tree built by the calls of `main`, `.119` is stored
(below the root `20`) but `contains(.119)` returns no value, where `main` expects `true`;
likewise `contains(3.78)`, with `3.78` not stored, returns no value, where `main` expects
`false`.  Both calls descend from the root, discard the result of the recursive call and
reach the end of the function without a `return`. -/
theorem contains_below_root_no_value :
    ∃ t, run mainCalls .nil = some t ∧
      (119 : Int) ∈ printTree t ∧ contains 119 t = none ∧
      (3780 : Int) ∉ printTree t ∧ contains 3780 t = none := by
  decide

/-- C8: on every non-empty tree obtained from the empty tree by `insert` and `remove`
calls, `findMin` returns the smallest stored value and `findMax` the largest one: they are
the first and the last element of the in-order traversal. -/
theorem findMin_findMax_extremes [LinearOrder α] (calls : List (Call α)) :
    ∃ t, run calls .nil = some t ∧
      (t ≠ .nil → ∃ lo hi, findMin t = .ok lo ∧ findMax t = .ok hi ∧
        lo ∈ printTree t ∧ hi ∈ printTree t ∧
        (∀ x ∈ printTree t, lo ≤ x ∧ x ≤ hi) ∧
        (printTree t).head? = some lo ∧ (printTree t).getLast? = some hi) := by
  obtain ⟨t, e, hi⟩ := run_inv calls .nil inv_nil
  refine ⟨t, e, fun hne => ?_⟩
  obtain ⟨lo, rest, elo, hlo⟩ := findMin_spec t hne
  obtain ⟨hi', front, ehi, hhi⟩ := findMax_spec t hne
  have hs := hi.2
  refine ⟨lo, hi', elo, ehi, by simp [hlo], by simp [hhi], ?_, by simp [hlo], by simp [hhi]⟩
  intro x hx
  constructor
  · rw [hlo] at hs hx
    rcases List.mem_cons.1 hx with rfl | hx
    · exact le_refl _
    · exact le_of_lt ((List.pairwise_cons.1 hs).1 x hx)
  · rw [hhi] at hs hx
    rcases List.mem_append.1 hx with hx | hx
    · exact le_of_lt ((List.pairwise_append.1 hs).2.2 x hx hi' (by simp))
    · simp only [List.mem_singleton] at hx
      exact le_of_eq hx

/-- C9: `findMin` and `findMax` throw the empty-tree exception exactly on the empty tree
(`root == NULL`), they throw nothing else, and on every non-empty tree both return a
value. -/
theorem findMin_findMax_throw_iff_empty (t : AVLNode α) :
    (findMin t = .error .emptyTree ↔ t = .nil) ∧
    (findMax t = .error .emptyTree ↔ t = .nil) ∧
    (∀ e, findMin t = .error e ∨ findMax t = .error e → e = .emptyTree ∧ t = .nil) ∧
    (t ≠ .nil ↔ ∃ lo hi, findMin t = .ok lo ∧ findMax t = .ok hi) := by
  cases t with
  | nil => simp [findMin, findMax]
  | node l r d h =>
    obtain ⟨lo, _, elo, _⟩ := findMin_spec (.node l r d h) (by simp)
    obtain ⟨hi, _, ehi, _⟩ := findMax_spec (.node l r d h) (by simp)
    simp [elo, ehi]

/-- C10: on every tree obtained from the empty tree by `insert` and `remove` calls,
`insert(v)` followed at once by a second `insert(v)` both complete, and the second call
leaves the tree as the first one left it: the in-order traversal is unchanged and has no
duplicate entry, and `contains(w)` gives the same result for every `w`. -/
theorem insert_twice_unchanged [LinearOrder α] (calls : List (Call α)) (v : α) :
    ∃ t t1 t2, run calls .nil = some t ∧ insert v t = some t1 ∧ insert v t1 = some t2 ∧
      printTree t2 = printTree t1 ∧ (∀ w, contains w t2 = contains w t1) ∧
      (printTree t2).Nodup ∧ t2 = t1 := by
  obtain ⟨t, e, hi⟩ := run_inv calls .nil inv_nil
  obtain ⟨t1, e1, hc1, hs1, _⟩ := insert_spec v t hi.1 hi.2
  have hs : (printTree t1).Sorted (· < ·) := hs1
  exact ⟨t, t1, t1, e, e1, insert_of_settled v t1 hc1 (settled_of_insert v t t1 hi.1 hi.2 e1),
    rfl, fun _ => rfl, hs.nodup, rfl⟩

/-- C11, evaluated on the code: after `insert(1); insert(0); insert(2); insert(3);
remove(0)` the tree is the chain `1`, `2`, `3` (the removal left the root with balance
factor `2`), and `3` is stored; `insert(3)` then rotates the root to the left, so the tree
after the call differs from the tree before it, although the traversal is the same. -/
theorem insert_stored_rotates :
    ∃ t t', run [Call.insert (1 : Int), .insert 0, .insert 2, .insert 3, .remove 0] .nil
        = some t ∧ (3 : Int) ∈ printTree t ∧ insert 3 t = some t' ∧ t' ≠ t ∧
      printTree t' = printTree t :=
  ⟨.node .nil (.node .nil (.node .nil .nil 3 0) 2 1) 1 2,
   .node (.node .nil .nil 1 0) (.node .nil .nil 3 0) 2 1, by decide⟩

/-- C12: after every finite sequence of `insert` and `remove` calls issued on the empty
tree, the cached `height` field of every node equals `1 + max(height(left), height(right))`
with `-1` for an absent child, and hence equals the true height of the subtree rooted at
that node. -/
theorem reachable_heights_cached [LinearOrder α] (calls : List (Call α)) :
    ∃ t, run calls .nil = some t ∧ HeightsCached t ∧ HeightsTrue t := by
  obtain ⟨t, e, hi⟩ := run_inv calls .nil inv_nil
  exact ⟨t, e, hi.1, heightsTrue_of_cached t hi.1⟩

/-- C13, evaluated on the code: after `insert(1); insert(3); insert(2)` the tree stores
`n = 3` values and has height `h = 2 = n - 1`, a chain, while `Fib(h + 3) - 1 = 4`: the
bound `n ≥ Fib(h + 3) - 1` fails. -/
theorem insert_three_gives_chain :
    ∃ t, run [Call.insert (1 : Int), .insert 3, .insert 2] .nil = some t ∧
      (printTree t).length = 3 ∧ height t = 2 ∧ realHeight t = 2 ∧
      ¬ (Nat.fib (2 + 3) - 1 ≤ (printTree t).length) :=
  ⟨.node .nil (.node (.node .nil .nil 2 0) .nil 3 1) 1 2, by decide⟩

/-- C14: on every tree obtained from the empty tree by `insert` and `remove` calls,
`isEmpty` is true exactly when no value is stored; it is true for the new tree, false
after any `insert`, and true again once every stored value has been removed. -/
theorem isEmpty_iff_no_values [LinearOrder α] (calls : List (Call α)) :
    ∃ t, run calls .nil = some t ∧
      (isEmpty t = true ↔ printTree t = []) ∧
      isEmpty (AVLNode.nil : AVLNode α) = true ∧
      (∀ v, ∃ t', insert v t = some t' ∧ isEmpty t' = false) ∧
      (∀ vs : List α, (∀ x ∈ printTree t, x ∈ vs) →
        ∃ t', run (vs.map Call.remove) t = some t' ∧ isEmpty t' = true) := by
  obtain ⟨t, e, hi⟩ := run_inv calls .nil inv_nil
  refine ⟨t, e, ?_, rfl, ?_, ?_⟩
  · cases t <;> simp [isEmpty, printTree]
  · intro v
    obtain ⟨t', e', _, _, hm⟩ := insert_spec v t hi.1 hi.2
    refine ⟨t', e', ?_⟩
    cases t' with
    | nil => simpa [printTree] using (hm v).2 (Or.inl rfl)
    | node _ _ _ _ => rfl
  · intro vs hvs
    obtain ⟨t', e', _, hm⟩ := run_removes vs t hi
    refine ⟨t', e', ?_⟩
    have : printTree t' = [] := by
      apply List.eq_nil_iff_forall_not_mem.2
      intro x hx
      have := (hm x).1 hx
      exact this.2 (hvs x this.1)
    rw [printTree_eq_nil t' this]
    rfl

/-- C15: on a node whose right child (the pivot) is present, `leftRot` makes the pivot the
root of the subtree, with the old node as its left child and the pivot's former left
subtree as the old node's right subtree; the in-order traversal is unchanged, so BST order
is kept.  Symmetrically `rightRot` on a node whose left child is present. -/
theorem rotation_shape [LinearOrder α] (l r pl pr : AVLNode α) (d pd : α) (h ph : Int) :
    (∃ h1 h2, leftRot (.node l (.node pl pr pd ph) d h)
        = some (.node (.node l pl d h1) pr pd h2) ∧
      printTree (.node (.node l pl d h1) pr pd h2)
        = printTree (.node l (.node pl pr pd ph) d h) ∧
      (BSTOrder (.node l (.node pl pr pd ph) d h)
        ↔ BSTOrder (.node (.node l pl d h1) pr pd h2))) ∧
    (∃ h1 h2, rightRot (.node (.node pl pr pd ph) r d h)
        = some (.node pl (.node pr r d h1) pd h2) ∧
      printTree (.node pl (.node pr r d h1) pd h2)
        = printTree (.node (.node pl pr pd ph) r d h) ∧
      (BSTOrder (.node (.node pl pr pd ph) r d h)
        ↔ BSTOrder (.node pl (.node pr r d h1) pd h2))) := by
  refine ⟨⟨_, _, rfl, ?_, ?_⟩, ⟨_, _, rfl, ?_, ?_⟩⟩
  · simp [printTree]
  · rw [bstOrder_iff_pairwise, bstOrder_iff_pairwise]
    simp [printTree]
  · simp [printTree]
  · rw [bstOrder_iff_pairwise, bstOrder_iff_pairwise]
    simp [printTree]

/-- C16: for `insert` of a value `v` not stored in a valid AVL tree (AVL balanced, correct
cached heights), every call of `rebalanceNode` the insertion makes, hence in particular
the first (lowest) one that finds `balanceFactor > 1` or `balanceFactor < -1`, takes the
branch the textbook rule takes: with `balanceFactor > 1`, `v > node.right.value` holds
exactly when the right child's own balance factor is positive, and with
`balanceFactor < -1`, `v < node.left.value` holds exactly when the left child's balance
factor is negative.  The cached heights the comparison reads are the true heights. -/
theorem insert_choice_is_textbook [LinearOrder α] (v : α) (t : AVLNode α)
    (hc : HeightsCached t) (hb : Balanced t) (hv : v ∉ printTree t) :
    ∀ c ∈ insertRebalances v t,
      rotationChoice c.1 c.2 = textbookChoiceInsert c.2 ∧ ChildrenCached c.2 :=
  insertRebalances_textbook v t hc hb hv

/-- C16 at the tree with root `1` and right leaf `2`, inserting `3`: the call at the root
finds balance factor `2` and both rules choose the single rotation. -/
theorem insert_choice_is_textbook_witness :
    HeightsCached (AVLNode.node .nil (.node .nil .nil (2 : Int) 0) 1 1) ∧
    Balanced (AVLNode.node .nil (.node .nil .nil (2 : Int) 0) 1 1) ∧
    (3 : Int) ∉ printTree (AVLNode.node .nil (.node .nil .nil (2 : Int) 0) 1 1) ∧
    (insertRebalances 3 (AVLNode.node .nil (.node .nil .nil (2 : Int) 0) 1 1)).find? Heavy
      = some (3, .node .nil (.node .nil (.node .nil .nil 3 0) 2 1) 1 1) ∧
    rotationChoice 3 (AVLNode.node .nil (.node .nil (.node .nil .nil (3 : Int) 0) 2 1) 1 1)
      = textbookChoiceInsert (AVLNode.node .nil (.node .nil (.node .nil .nil (3 : Int) 0) 2 1) 1 1) ∧
    rotationChoice 3 (AVLNode.node .nil (.node .nil (.node .nil .nil (3 : Int) 0) 2 1) 1 1)
      = some true :=
  ⟨by decide, by decide, by decide, by decide,
    (insert_choice_is_textbook 3 (AVLNode.node .nil (.node .nil .nil (2 : Int) 0) 1 1)
      (by decide) (by decide) (by decide)
      (3, .node .nil (.node .nil (.node .nil .nil 3 0) 2 1) 1 1) (by decide)).1,
    by decide⟩

/-- C17, evaluated on the code: the tree built by `insert(2); insert(1); insert(3);
insert(4)` is a valid AVL tree storing `1`.  During `remove(1)` the first call of
`rebalanceNode` that finds a balance factor out of range is the one at the root `2`, with
balance factor `2`; the right child `3` has balance factor `1 ≥ 0`, for which the textbook
rule takes the single left rotation, but the test `1 > 3` of the code fails, the other
branch is taken, and the tree is returned unbalanced. -/
theorem remove_choice_differs_from_textbook :
    ∃ t n t', run [Call.insert (2 : Int), .insert 1, .insert 3, .insert 4] .nil = some t ∧
      BSTOrder t ∧ Balanced t ∧ HeightsCached t ∧ (1 : Int) ∈ printTree t ∧
      (removeRebalances 1 t).find? Heavy = some (1, n) ∧
      n = .node .nil (.node .nil (.node .nil .nil 4 0) 3 1) 2 2 ∧ balanceFactor n = 2 ∧
      rotationChoice 1 n = some false ∧ textbookChoiceRemove n = some true ∧
      remove 1 t = .returned t' ∧ ¬ Balanced t' :=
  ⟨.node (.node .nil .nil 1 0) (.node .nil (.node .nil .nil 4 0) 3 1) 2 2,
   .node .nil (.node .nil (.node .nil .nil 4 0) 3 1) 2 2,
   .node .nil (.node .nil (.node .nil .nil 4 0) 3 1) 2 2, by decide⟩

/-- C18: on a node whose right child is present and whose subtree has correct cached
heights, `leftRot` followed by `rightRot` on the new root of the slot gives back exactly
the original subtree, with the same shape, values and cached heights; symmetrically
`rightRot` followed by `leftRot` on a node whose left child is present. -/
theorem double_rotation_restores (t : AVLNode α) (hc : HeightsCached t) :
    (∀ l pl pr d pd h ph, t = .node l (.node pl pr pd ph) d h →
      (leftRot t).bind rightRot = some t) ∧
    (∀ pl pr r d pd h ph, t = .node (.node pl pr pd ph) r d h →
      (rightRot t).bind leftRot = some t) := by
  constructor
  · rintro l pl pr d pd h ph rfl
    obtain ⟨hh, _, hp, _, _⟩ := hc
    simp only [height_node] at hh
    subst hh
    exact leftRot_rightRot l pl pr d pd ph hp
  · rintro pl pr r d pd h ph rfl
    obtain ⟨hh, ⟨hp, _, _⟩, _⟩ := hc
    simp only [height_node] at hh
    subst hh
    exact rightRot_leftRot pl pr r d pd ph hp

/-- C18 at the tree with root `2` and leaves `1` and `3`. -/
theorem double_rotation_restores_witness :
    HeightsCached (AVLNode.node (.node .nil .nil (1 : Int) 0) (.node .nil .nil 3 0) 2 1) ∧
    (leftRot (AVLNode.node (.node .nil .nil (1 : Int) 0) (.node .nil .nil 3 0) 2 1)).bind
        rightRot
      = some (.node (.node .nil .nil 1 0) (.node .nil .nil 3 0) 2 1) ∧
    (rightRot (AVLNode.node (.node .nil .nil (1 : Int) 0) (.node .nil .nil 3 0) 2 1)).bind
        leftRot
      = some (.node (.node .nil .nil 1 0) (.node .nil .nil 3 0) 2 1) :=
  have key := double_rotation_restores
    (AVLNode.node (.node .nil .nil (1 : Int) 0) (.node .nil .nil 3 0) 2 1) (by decide)
  ⟨by decide, key.1 _ _ _ _ _ _ _ rfl, key.2 _ _ _ _ _ _ _ rfl⟩

/-- C19: in every state obtained from the empty tree by `insert` and `remove` calls, a
further `insert` or `remove` dereferences no `NULL`: every call of `rebalanceNode` it makes
that finds `balanceFactor > 1` has its right child present, every one that finds
`balanceFactor < -1` has its left child present, and the second rotation of a
double-rotation branch finds its pivot as well. -/
theorem reachable_pivots_present [LinearOrder α] (calls : List (Call α)) (v : α) :
    ∃ t, run calls .nil = some t ∧
      (∃ t', insert v t = some t') ∧ remove v t ≠ .fault ∧
      (∀ c ∈ insertRebalances v t, PivotsPresent c.2) ∧
      (∀ c ∈ removeRebalances v t, PivotsPresent c.2) := by
  obtain ⟨t, e, hi⟩ := run_inv calls .nil inv_nil
  obtain ⟨t', e', _⟩ := insert_spec v t hi.1 hi.2
  refine ⟨t, e, ⟨t', e'⟩, ?_, ?_, ?_⟩
  · by_cases hv : v ∈ printTree t
    · obtain ⟨t'', e'', _⟩ := remove_present t v hi.1 hi.2 hv
      simp [e'']
    · simp [remove_absent v t hv]
  · exact fun c hc => pivotsPresent_of_childrenCached c.2 (insertRebalances_cached v t hi c hc)
  · exact fun c hc => pivotsPresent_of_childrenCached c.2 (removeRebalances_cached t v hi c hc)

end AVLTree
